import Mathlib

/-!
Shallow embedding of the piano-trainer repository's MusicXML-to-JSON
converter (`scripts/conv.py`) and song editor (`scripts/edit_json.py`).

Modelling conventions:
* Python floats are modelled as exact rationals (`ℚ`); integer-valued XML
  text fields (`int(elem.text)`) are modelled as `ℤ`.
* Python exceptions that the converter can raise while converting
  (`KeyError` from the `note_map` lookup in `pitch_to_midi`,
  `ZeroDivisionError` from `duration / divisions`) are modelled with
  `Except ConvErr`.
* Python dicts (`voice_beats`, `active_ties`) are modelled as
  insertion-ordered association lists: lookup finds the first matching key,
  assignment rewrites an existing entry in place or appends a new one,
  `del` removes the entry.  This matches CPython dict semantics for the
  operations the source uses.
* The Python voice key is the string `f"{voice}_{staff}"` where `staff` is
  an `int`; since `str(int)` never contains an underscore this string is in
  bijection with the pair `(voice, staff)`, which is what we use as the key.
* `active_ties` stores a reference to a `Note` object that is also stored
  in the `notes` list; mutating it through the dict mutates the list entry.
  We model this aliasing by storing the index of the note in `notes`
  (a registered tie anchor is always appended to `notes` immediately after
  registration, at index `notes.length` at registration time).
* Python's `round` is round-half-to-even, modelled by `pyRound`.
* `list.sort(key=...)` is a stable ascending sort, modelled by a stable
  structural insertion sort (stable ascending sorts are extensionally
  unique, and the structural definition lets proofs evaluate it).
-/

/-- A musical note, from the `Note` dataclass in `conv.py`. -/
structure Note where
  pitch : ℤ
  beat : ℚ
  duration : ℚ
  velocity : ℤ := 80
  voice : String := "1"
  staff : ℤ := 1
deriving DecidableEq, Repr

/-- Key identifying one voice timing track: `(voice, staff)`,
the Python string key `f"{voice}_{staff}"`. -/
abbrev VoiceKey := String × ℤ

/-- Key identifying one open tie chain: `(pitch, voice, staff)`. -/
abbrev TieKey := ℤ × String × ℤ

/-- Errors the converter can raise: `KeyError` from the pitch-letter map
(the spec's `InvalidPitchStep`) and `ZeroDivisionError` from
`duration / divisions`. -/
inductive ConvErr where
  | invalidPitchStep
  | zeroDivision
deriving DecidableEq, Repr

/-- Mutable converter state: the fields of `MusicXMLConverter`. -/
structure ConvState where
  divisions : ℤ
  current_beat : ℚ
  notes : List Note
  active_ties : List (TieKey × ℕ)
  chord_start_beat : ℚ
  voice_beats : List (VoiceKey × ℚ)
deriving DecidableEq, Repr

/-- The state of a freshly constructed `MusicXMLConverter` (its
`__init__`). -/
def initState : ConvState :=
  { divisions := 24
    current_beat := 0
    notes := []
    active_ties := []
    chord_start_beat := 0
    voice_beats := [] }

/-- Dict lookup: first entry with the given key (CPython dict `d[k]` /
`k in d`). -/
def assocFind {κ α : Type} [DecidableEq κ] (k : κ) : List (κ × α) → Option α
  | [] => none
  | (k', v) :: rest => if k' = k then some v else assocFind k rest

/-- Dict assignment `d[k] = v`: replace in place, else append (CPython
dicts preserve insertion order). -/
def assocSet {κ α : Type} [DecidableEq κ] (k : κ) (v : α) :
    List (κ × α) → List (κ × α)
  | [] => [(k, v)]
  | (k', v') :: rest =>
      if k' = k then (k, v) :: rest else (k', v') :: assocSet k v rest

/-- Dict deletion `del d[k]`. -/
def assocErase {κ α : Type} [DecidableEq κ] (k : κ) :
    List (κ × α) → List (κ × α)
  | [] => []
  | (k', v') :: rest =>
      if k' = k then rest else (k', v') :: assocErase k rest

/-- `max(d.values())` over an insertion-ordered dict (the dict is nonempty
at every call site; the `[]` case is unreachable). -/
def valuesMax : List (VoiceKey × ℚ) → ℚ
  | [] => 0
  | (_, v) :: rest => rest.foldl (fun acc p => max acc p.2) v

/-- In-place update of the i-th element of a list
(`self.notes[i].duration += ...` through the alias in `active_ties`). -/
def modifyNth {α : Type} (f : α → α) : ℕ → List α → List α
  | _, [] => []
  | 0, a :: as => f a :: as
  | n + 1, a :: as => a :: modifyNth f n as

/-- The `pitch` child element of a note: step text, optional alter text,
octave text. -/
structure PitchElem where
  step : String
  alter : Option ℤ
  octave : ℤ
deriving DecidableEq, Repr

/-- A `note` element of a measure, with the children `conv.py` reads. -/
structure NoteElem where
  voice : Option String := none
  staff : Option ℤ := none
  duration : Option ℤ := none
  rest : Bool := false
  pitch : Option PitchElem := none
  chord : Bool := false
  tieStart : Bool := false
  tieStop : Bool := false
deriving DecidableEq, Repr

/-- A child element of a measure, in document order. `other` stands for
any tag the converter ignores. -/
inductive MeasureElem where
  | attributes (divisions : Option ℤ)
  | note (n : NoteElem)
  | backup (duration : Option ℤ)
  | forward (duration : Option ℤ)
  | other
deriving DecidableEq, Repr

/-- A `measure` element. -/
structure Measure where
  elems : List MeasureElem
deriving DecidableEq, Repr

/-- A `part` element. -/
structure ScorePart where
  measures : List Measure
deriving DecidableEq, Repr

/-- A parsed partwise document: optional `work/work-title` text and the
`part` elements. -/
structure Doc where
  title : Option String := none
  parts : List ScorePart := []
deriving DecidableEq, Repr

/-- Output note in the JSON schema: pitch, timing.beat, timing.duration,
velocity. -/
structure JsonNote where
  pitch : ℤ
  beat : ℚ
  duration : ℚ
  velocity : ℤ
deriving DecidableEq, Repr

/-- The converted song: title, bpm, note list (`conv.py` result dict). -/
structure ConvOutput where
  title : String
  bpm : ℤ
  notes : List JsonNote
deriving DecidableEq, Repr

/-- The semitone-offset dict `note_map` in `pitch_to_midi`. -/
def noteMap (step : String) : Option ℤ :=
  if step = "C" then some 0
  else if step = "D" then some 2
  else if step = "E" then some 4
  else if step = "F" then some 5
  else if step = "G" then some 7
  else if step = "A" then some 9
  else if step = "B" then some 11
  else none

/-- `MusicXMLConverter.pitch_to_midi`: `(octave + 1) * 12 + note_map[step]
+ alter`; an unrecognized step raises `KeyError` (`InvalidPitchStep`). -/
def pitch_to_midi (step : String) (alter : ℤ) (octave : ℤ) :
    Except ConvErr ℤ :=
  match noteMap step with
  | some off => .ok ((octave + 1) * 12 + off + alter)
  | none => .error .invalidPitchStep

/-- `MusicXMLConverter.duration_to_beats`: `duration / self.divisions`;
a zero divisions value raises `ZeroDivisionError`. -/
def duration_to_beats (divisions : ℤ) (duration : ℤ) : Except ConvErr ℚ :=
  if divisions = 0 then .error .zeroDivision
  else .ok ((duration : ℚ) / (divisions : ℚ))

/-- Python `round`: nearest integer, ties to even. -/
def pyRound (x : ℚ) : ℤ :=
  let f := ⌊x⌋
  if x - f < 1 / 2 then f
  else if 1 / 2 < x - f then f + 1
  else if f % 2 = 0 then f else f + 1

/-- `MusicXMLConverter.round_beat`: snap to the nearest integer, half or
quarter within absolute tolerance `0.0001`, else return the value
unchanged. -/
def round_beat (x : ℚ) : ℚ :=
  if |x - (pyRound x : ℚ)| < 1 / 10000 then (pyRound x : ℚ)
  else if |x - (pyRound (x * 2) : ℚ) / 2| < 1 / 10000 then
    (pyRound (x * 2) : ℚ) / 2
  else if |x - (pyRound (x * 4) : ℚ) / 4| < 1 / 10000 then
    (pyRound (x * 4) : ℚ) / 4
  else x

/-- `MusicXMLConverter.process_note_element`.  Returns the (possibly
voice-seeded) state and the built `Note`, or `none` for notes lacking a
duration, rests, and notes lacking pitch information. -/
def process_note_element (s : ConvState) (n : NoteElem) :
    Except ConvErr (ConvState × Option Note) :=
  let voice := n.voice.getD "1"
  let staff := n.staff.getD 1
  match n.duration with
  | none => .ok (s, none)
  | some d =>
    match duration_to_beats s.divisions d with
    | .error e => .error e
    | .ok durationBeats =>
      if n.rest then .ok (s, none)
      else
        match n.pitch with
        | none => .ok (s, none)
        | some p =>
          match pitch_to_midi p.step (p.alter.getD 0) p.octave with
          | .error e => .error e
          | .ok midi =>
            let vk : VoiceKey := (voice, staff)
            let s1 :=
              match assocFind vk s.voice_beats with
              | some _ => s
              | none =>
                  { s with
                     voice_beats := assocSet vk s.current_beat s.voice_beats }
            let beatPos := (assocFind vk s1.voice_beats).getD s1.current_beat
            .ok (s1, some
              { pitch := midi
                beat := beatPos
                duration := durationBeats
                velocity := 80
                voice := voice
                staff := staff })

/-- `MusicXMLConverter.process_tie`.  Returns whether the note should be
appended, together with the updated state.  A matching tie stop extends
the registered anchor note in place (modelled through its index into
`notes`) and suppresses the current note; a tie start registers the note
that is about to be appended at index `s.notes.length`. -/
def process_tie (s : ConvState) (n : NoteElem) (note : Note) :
    Bool × ConvState :=
  let tieKey : TieKey := (note.pitch, note.voice, note.staff)
  match (if n.tieStop then assocFind tieKey s.active_ties else none) with
  | some idx =>
      let newNotes :=
        modifyNth (fun t => { t with duration := t.duration + note.duration })
          idx s.notes
      if n.tieStart then
        (false, { s with notes := newNotes })
      else
        (false,
         { s with
            notes := newNotes
            active_ties := assocErase tieKey s.active_ties })
  | none =>
      if n.tieStart then
        (true,
         { s with
            active_ties := assocSet tieKey s.notes.length s.active_ties })
      else
        (true, s)

/-- One iteration of the element loop in
`MusicXMLConverter.process_measure`, carrying the measure start beat and
the running `measure_duration`. -/
def processElem (measureStart : ℚ) (s : ConvState) (md : ℚ) :
    MeasureElem → Except ConvErr (ConvState × ℚ)
  | .attributes dv =>
      match dv with
      | some v => .ok ({ s with divisions := v }, md)
      | none => .ok (s, md)
  | .note n =>
      let voice := n.voice.getD "1"
      let staff := n.staff.getD 1
      let vk : VoiceKey := (voice, staff)
      match (match n.duration with
             | some d => duration_to_beats s.divisions d
             | none => Except.ok 0) with
      | .error e => .error e
      | .ok durationBeats =>
        let isChord := n.chord
        let s1 :=
          match assocFind vk s.voice_beats with
          | some _ => s
          | none =>
              { s with
                 voice_beats := assocSet vk s.current_beat s.voice_beats }
        let s2 :=
          if isChord then s1
          else
            { s1 with
               chord_start_beat :=
                 (assocFind vk s1.voice_beats).getD s1.current_beat }
        match process_note_element s2 n with
        | .error e => .error e
        | .ok (s3, noteOpt) =>
          let s4 :=
            match noteOpt with
            | none => s3
            | some note0 =>
              let note1 :=
                if isChord then { note0 with beat := s3.chord_start_beat }
                else note0
              let pr := process_tie s3 n note1
              if pr.1 then { pr.2 with notes := pr.2.notes ++ [note1] }
              else pr.2
          if isChord then .ok (s4, md)
          else
            let oldVb := (assocFind vk s4.voice_beats).getD s4.current_beat
            let newVb := assocSet vk (oldVb + durationBeats) s4.voice_beats
            let newCb := valuesMax newVb
            .ok ({ s4 with voice_beats := newVb, current_beat := newCb },
                 max md (newCb - measureStart))
  | .backup dOpt =>
      match dOpt with
      | some d =>
          match duration_to_beats s.divisions d with
          | .error e => .error e
          | .ok _ => .ok ({ s with current_beat := measureStart }, md)
      | none => .ok (s, md)
  | .forward dOpt =>
      match dOpt with
      | some d =>
          match duration_to_beats s.divisions d with
          | .error e => .error e
          | .ok fb =>
              .ok ({ s with current_beat := s.current_beat + fb }, md)
      | none => .ok (s, md)
  | .other => .ok (s, md)

/-- The element loop of `process_measure` over a list of elements. -/
def processElems (measureStart : ℚ) :
    List MeasureElem → ConvState → ℚ → Except ConvErr (ConvState × ℚ)
  | [], s, md => .ok (s, md)
  | e :: rest, s, md =>
      match processElem measureStart s md e with
      | .error err => .error err
      | .ok (s', md') => processElems measureStart rest s' md'

/-- `MusicXMLConverter.process_measure`: run the element loop, then force
`current_beat` to `measure_start_beat + measure_duration` when the
measure observed a positive advance. -/
def processMeasure (s : ConvState) (m : Measure) : Except ConvErr ConvState :=
  let mstart := s.current_beat
  match processElems mstart m.elems s 0 with
  | .error e => .error e
  | .ok (s', md) =>
      if 0 < md then .ok { s' with current_beat := mstart + md }
      else .ok s'

/-- The measure loop of `convert_file` within one part. -/
def processMeasures : List Measure → ConvState → Except ConvErr ConvState
  | [], s => .ok s
  | m :: rest, s =>
      match processMeasure s m with
      | .error e => .error e
      | .ok s' => processMeasures rest s'

/-- One iteration of the part loop of `convert_file`: reset the beat
cursor and the voice map, then process the part's measures. -/
def processPart (s : ConvState) (p : ScorePart) : Except ConvErr ConvState :=
  processMeasures p.measures { s with current_beat := 0, voice_beats := [] }

/-- The part loop of `convert_file`. -/
def processParts : List ScorePart → ConvState → Except ConvErr ConvState
  | [], s => .ok s
  | p :: rest, s =>
      match processPart s p with
      | .error e => .error e
      | .ok s' => processParts rest s'

/-- Serialization of one `Note` to the JSON schema, quantizing beat and
duration. -/
def noteToJson (n : Note) : JsonNote :=
  { pitch := n.pitch
    beat := round_beat n.beat
    duration := round_beat n.duration
    velocity := n.velocity }

/-- Stable ascending insertion of a note into a beat-sorted list: the new
note goes before every already-present note with an equal or larger beat
that it preceded in the input. -/
def insertByBeat (x : JsonNote) : List JsonNote → List JsonNote
  | [] => [x]
  | y :: ys =>
      if y.beat < x.beat then y :: insertByBeat x ys else x :: y :: ys

/-- `json_notes.sort(key=lambda x: x["timing"]["beat"])`: Python's stable
ascending sort by beat. -/
def sortByBeat : List JsonNote → List JsonNote
  | [] => []
  | x :: xs => insertByBeat x (sortByBeat xs)

/-- `MusicXMLConverter.convert_file` on an already-parsed document, run on
converter instance state `s`: reset `current_beat`, `notes`,
`active_ties` and `voice_beats` (but neither `divisions` nor
`chord_start_beat`), read the title, process all parts, serialize, sort
and wrap. -/
def convert_file (s : ConvState) (doc : Doc) : Except ConvErr ConvOutput :=
  let s0 :=
    { s with
       current_beat := 0
       notes := []
       active_ties := []
       voice_beats := [] }
  let title := doc.title.getD "Untitled"
  match processParts doc.parts s0 with
  | .error e => .error e
  | .ok s1 =>
      .ok { title := title
            bpm := 120
            notes := sortByBeat (s1.notes.map noteToJson) }

/-- Conversion as performed by `main()`: a fresh converter instance. -/
def convertFile (doc : Doc) : Except ConvErr ConvOutput :=
  convert_file initState doc

/-- Song data as held by `SongEditor` in `edit_json.py`: title, bpm, and
the note list of the JSON schema. -/
structure Song where
  title : String
  bpm : ℤ
  notes : List JsonNote
deriving DecidableEq, Repr

/-- The note-extraction loop of `SongEditor.extract_measures`. -/
def extractLoop (startBeat endBeat : ℚ) : List JsonNote → List JsonNote
  | [] => []
  | n :: rest =>
      if startBeat ≤ n.beat ∧ n.beat < endBeat then
        { n with beat := n.beat - startBeat } :: extractLoop startBeat endBeat rest
      else extractLoop startBeat endBeat rest

/-- `SongEditor.extract_measures`: keep the notes whose beat lies in
`[(start_measure - 1) * beats_per_measure, end_measure *
beats_per_measure)`, shifting each kept note's beat down by the range
start. -/
def extract_measures (ed : Song) (start_measure end_measure : ℤ)
    (beats_per_measure : ℤ) : Song :=
  let start_beat : ℚ := ((start_measure - 1) * beats_per_measure : ℤ)
  let end_beat : ℚ := ((end_measure * beats_per_measure : ℤ) : ℚ)
  { title := ed.title ++ " (小節 " ++ toString start_measure ++ "-" ++
      toString end_measure ++ ")"
    bpm := ed.bpm
    notes := extractLoop start_beat end_beat ed.notes }

/-! ## Quantizer lemmas -/

/-- An integer that a quarter-tolerance bound forces to vanish. -/
theorem quarter_small_eq_zero (j : ℤ) (h : |(j : ℚ) / 4| < 1 / 10000) :
    j = 0 := by
  rw [abs_div] at h
  have h4 : |(4 : ℚ)| = 4 := by norm_num
  rw [h4] at h
  have hq : |(j : ℚ)| < 1 := by linarith [abs_nonneg (j : ℚ)]
  rw [← Int.cast_abs] at hq
  have h1 : |j| < 1 := by exact_mod_cast hq
  rwa [Int.abs_lt_one_iff] at h1

/-- Every value on the quarter grid is a fixed point of the quantizer. -/
theorem round_beat_quarter (k : ℤ) :
    round_beat ((k : ℚ) / 4) = (k : ℚ) / 4 := by
  unfold round_beat
  split_ifs with h1 h2 h3
  · have hj : (k : ℚ) / 4 - (pyRound ((k : ℚ) / 4) : ℚ) =
        ((k - 4 * pyRound ((k : ℚ) / 4) : ℤ) : ℚ) / 4 := by
      push_cast
      ring
    rw [hj] at h1
    have hz := quarter_small_eq_zero _ h1
    have hk : (k : ℚ) = 4 * (pyRound ((k : ℚ) / 4) : ℚ) := by
      exact_mod_cast congrArg (Int.cast : ℤ → ℚ) (by omega : k = 4 * pyRound ((k : ℚ) / 4))
    linarith
  · have hj : (k : ℚ) / 4 - (pyRound ((k : ℚ) / 4 * 2) : ℚ) / 2 =
        ((k - 2 * pyRound ((k : ℚ) / 4 * 2) : ℤ) : ℚ) / 4 := by
      push_cast
      ring
    rw [hj] at h2
    have hz := quarter_small_eq_zero _ h2
    have hk : (k : ℚ) = 2 * (pyRound ((k : ℚ) / 4 * 2) : ℚ) := by
      exact_mod_cast congrArg (Int.cast : ℤ → ℚ) (by omega : k = 2 * pyRound ((k : ℚ) / 4 * 2))
    linarith
  · have hj : (k : ℚ) / 4 - (pyRound ((k : ℚ) / 4 * 4) : ℚ) / 4 =
        ((k - pyRound ((k : ℚ) / 4 * 4) : ℤ) : ℚ) / 4 := by
      push_cast
      ring
    rw [hj] at h3
    have hz := quarter_small_eq_zero _ h3
    have hk : (k : ℚ) = (pyRound ((k : ℚ) / 4 * 4) : ℚ) := by
      exact_mod_cast congrArg (Int.cast : ℤ → ℚ) (by omega : k = pyRound ((k : ℚ) / 4 * 4))
    linarith
  · rfl

/-- A value equal to a quarter-grid point is a fixed point of the
quantizer. -/
theorem round_beat_fixed_of_eq (x : ℚ) (k : ℤ) (h : x = (k : ℚ) / 4) :
    round_beat x = x := by
  rw [h]
  exact round_beat_quarter k

/-- The quantizer returns either a quarter-grid value or its input. -/
theorem round_beat_cases (x : ℚ) :
    (∃ k : ℤ, round_beat x = (k : ℚ) / 4) ∨ round_beat x = x := by
  unfold round_beat
  split_ifs with h1 h2 h3
  · exact Or.inl ⟨4 * pyRound x, by push_cast; ring⟩
  · exact Or.inl ⟨2 * pyRound (x * 2), by push_cast; ring⟩
  · exact Or.inl ⟨pyRound (x * 4), rfl⟩
  · exact Or.inr rfl

/-- C7: the beat quantizer is idempotent: for every value `x`,
`round_beat (round_beat x) = round_beat x`. -/
theorem round_beat_idempotent (x : ℚ) :
    round_beat (round_beat x) = round_beat x := by
  rcases round_beat_cases x with ⟨k, hk⟩ | hfix
  · rw [hk]
    exact round_beat_quarter k
  · rw [hfix, hfix]

/-- The quantizer fixes 0. -/
theorem round_beat_zero : round_beat (0 : ℚ) = 0 :=
  round_beat_fixed_of_eq 0 0 (by norm_num)

/-- The quantizer fixes 1. -/
theorem round_beat_one : round_beat (1 : ℚ) = 1 :=
  round_beat_fixed_of_eq 1 4 (by norm_num)

/-- The quantizer fixes 2. -/
theorem round_beat_two : round_beat (2 : ℚ) = 2 :=
  round_beat_fixed_of_eq 2 8 (by norm_num)

/-! ## Editor: measure extraction -/

/-- The extraction loop is filtering by the beat window followed by
shifting the beat. -/
theorem extractLoop_eq_filter_map (a b : ℚ) (l : List JsonNote) :
    extractLoop a b l =
      (l.filter fun n => decide (a ≤ n.beat ∧ n.beat < b)).map
        fun n => { n with beat := n.beat - a } := by
  induction l with
  | nil => rfl
  | cons n rest ih =>
      by_cases h : a ≤ n.beat ∧ n.beat < b
      · simp [extractLoop, h, ih]
      · simp [extractLoop, h, ih]

/-- C9: `extract_measures` returns exactly the notes whose beat `x`
satisfies `(startMeasure - 1) * beatsPerMeasure ≤ x <
endMeasure * beatsPerMeasure`, each rewritten with its beat shifted down
by the range start and all other fields unchanged, in order. -/
theorem extract_measures_notes (ed : Song) (sm em bpm : ℤ) :
    (extract_measures ed sm em bpm).notes =
      (ed.notes.filter fun n =>
          decide ((((sm - 1) * bpm : ℤ) : ℚ) ≤ n.beat ∧
            n.beat < ((em * bpm : ℤ) : ℚ))).map
        fun n => { n with beat := n.beat - (((sm - 1) * bpm : ℤ) : ℚ) } := by
  unfold extract_measures
  exact extractLoop_eq_filter_map _ _ _

/-! ## Tie merger frame property -/

/-- Updating index `i` maps the stored value through `f`. -/
theorem modifyNth_getElem_eq {α : Type} (f : α → α) (i : ℕ) (l : List α) :
    (modifyNth f i l)[i]? = (l[i]?).map f := by
  induction l generalizing i with
  | nil => simp [modifyNth]
  | cons a as ih =>
      cases i with
      | zero => simp [modifyNth]
      | succ j => simpa [modifyNth] using ih j

/-- Updating index `i` leaves every other index unchanged. -/
theorem modifyNth_getElem_ne {α : Type} (f : α → α) (i j : ℕ)
    (l : List α) (h : j ≠ i) : (modifyNth f i l)[j]? = l[j]? := by
  induction l generalizing i j with
  | nil => simp [modifyNth]
  | cons a as ih =>
      cases i with
      | zero =>
          cases j with
          | zero => exact absurd rfl h
          | succ j' => simp [modifyNth]
      | succ i' =>
          cases j with
          | zero => simp [modifyNth]
          | succ j' => simpa [modifyNth] using ih i' j' (by omega)

/-- C10: when a tie-stop note matches an open tie entry, the merger
suppresses the note and the only change to the note list is that the
anchor note's duration grows by the current note's duration — its pitch,
beat, voice, staff and velocity are untouched, and every other note in
the output list is unchanged. -/
theorem process_tie_stop_frame (s : ConvState) (n : NoteElem) (note : Note)
    (idx : ℕ) (anchor : Note) (hstop : n.tieStop = true)
    (hfind : assocFind (note.pitch, note.voice, note.staff)
        s.active_ties = some idx)
    (hanchor : s.notes[idx]? = some anchor) :
    (process_tie s n note).1 = false ∧
    (process_tie s n note).2.notes[idx]? =
      some { anchor with duration := anchor.duration + note.duration } ∧
    ∀ j, j ≠ idx → (process_tie s n note).2.notes[j]? = s.notes[j]? := by
  cases hts : n.tieStart with
  | true =>
      refine ⟨by simp [process_tie, hstop, hfind, hts], ?_, ?_⟩
      · simp [process_tie, hstop, hfind, hts, modifyNth_getElem_eq, hanchor]
      · intro j hj
        simp [process_tie, hstop, hfind, hts, modifyNth_getElem_ne _ _ _ _ hj]
  | false =>
      refine ⟨by simp [process_tie, hstop, hfind, hts], ?_, ?_⟩
      · simp [process_tie, hstop, hfind, hts, modifyNth_getElem_eq, hanchor]
      · intro j hj
        simp [process_tie, hstop, hfind, hts, modifyNth_getElem_ne _ _ _ _ hj]

/-- Concrete instance for the tie-merger frame property. -/
theorem process_tie_stop_frame_witness :
    (process_tie
        { initState with
            notes := [{ pitch := 60, beat := 0, duration := 1 }],
            active_ties := [((60, "1", 1), 0)] }
        { tieStop := true }
        { pitch := 60, beat := 1, duration := 1 }).1 = false ∧
    (process_tie
        { initState with
            notes := [{ pitch := 60, beat := 0, duration := 1 }],
            active_ties := [((60, "1", 1), 0)] }
        { tieStop := true }
        { pitch := 60, beat := 1, duration := 1 }).2.notes[0]? =
      some { pitch := 60, beat := 0, duration := 1 + 1 } ∧
    ∀ j, j ≠ 0 →
      (process_tie
          { initState with
              notes := [{ pitch := 60, beat := 0, duration := 1 }],
              active_ties := [((60, "1", 1), 0)] }
          { tieStop := true }
          { pitch := 60, beat := 1, duration := 1 }).2.notes[j]? =
        ([{ pitch := 60, beat := 0, duration := 1 }] : List Note)[j]? :=
  process_tie_stop_frame _ _ _ 0 { pitch := 60, beat := 0, duration := 1 }
    rfl (by simp [assocFind]) rfl

/-! ## Pitch resolution -/

/-- The pitch-letter map recognizes exactly the seven letters. -/
theorem noteMap_eq_none_iff (step : String) :
    noteMap step = none ↔
      step ∉ (["C", "D", "E", "F", "G", "A", "B"] : List String) := by
  unfold noteMap
  split_ifs with h1 h2 h3 h4 h5 h6 h7 <;> simp_all

/-- A note element with the unrecognized pitch letter "H". -/
def badStepNote : NoteElem :=
  { duration := some 24
    pitch := some { step := "H", alter := none, octave := 4 } }

/-- Document containing one note whose pitch step is the unrecognized
letter "H". -/
def badStepDoc : Doc :=
  { parts := [⟨[⟨[.note badStepNote]⟩]⟩] }

/-- C8: an unrecognized pitch letter makes pitch resolution fail with
`InvalidPitchStep`, and the error surfaces through a whole conversion
rather than being replaced by a default; for recognized letters the
result is exactly the unclamped formula
`(octave + 1) * 12 + offset + alter`, never range-checked. -/
theorem pitch_to_midi_spec :
    (∀ step alter octave,
        step ∉ (["C", "D", "E", "F", "G", "A", "B"] : List String) →
        pitch_to_midi step alter octave = .error .invalidPitchStep) ∧
    (∀ step alter octave off, noteMap step = some off →
        pitch_to_midi step alter octave =
          .ok ((octave + 1) * 12 + off + alter)) ∧
    convert_file initState badStepDoc = .error .invalidPitchStep := by
  refine ⟨?_, ?_, ?_⟩
  · intro step alter octave h
    rw [← noteMap_eq_none_iff] at h
    simp [pitch_to_midi, h]
  · intro step alter octave off h
    simp [pitch_to_midi, h]
  · have hH : noteMap "H" = none := by decide
    norm_num [convert_file, badStepDoc, badStepNote, initState, processParts,
      processPart, processMeasures, processMeasure, processElems, processElem,
      process_note_element, duration_to_beats, pitch_to_midi, hH,
      assocFind, assocSet]

/-- Concrete instances for pitch resolution: the letter "H" is rejected
with `InvalidPitchStep`, and a recognized letter yields the raw formula
value even outside the 0–127 MIDI range (C10 of octave 9 gives 120;
nothing clamps). -/
theorem pitch_to_midi_spec_witness :
    pitch_to_midi "H" 0 4 = .error .invalidPitchStep ∧
    pitch_to_midi "C" 0 9 = .ok 120 := by
  refine ⟨pitch_to_midi_spec.1 "H" 0 4 (by decide), ?_⟩
  have h := pitch_to_midi_spec.2.1 "C" 0 9 0 rfl
  simpa using h

/-! ## End-to-end example -/

/-- A plain quarter-note C4 element with the given duration value. -/
def c4NoteElem (d : ℤ) : NoteElem :=
  { duration := some d
    pitch := some { step := "C", alter := none, octave := 4 } }

/-- Document with divisions declared as 24 and two sequential untied,
non-chord C4 quarter notes of duration 24 each. -/
def twoQuarterDoc : Doc :=
  { parts := [⟨[⟨[.attributes (some 24), .note (c4NoteElem 24),
      .note (c4NoteElem 24)]⟩]⟩] }

/-- C1: converting the two-quarter-note document emits exactly
`[{pitch := 60, beat := 0, duration := 1, velocity := 80},
{pitch := 60, beat := 1, duration := 1, velocity := 80}]` in that
order. -/
theorem convert_two_quarters :
    convertFile twoQuarterDoc =
      .ok { title := "Untitled", bpm := 120,
            notes := [{ pitch := 60, beat := 0, duration := 1,
                          velocity := 80 },
                      { pitch := 60, beat := 1, duration := 1,
                          velocity := 80 }] } := by
  have hC : noteMap "C" = some 0 := by decide
  norm_num [convertFile, convert_file, twoQuarterDoc, c4NoteElem, initState,
    processParts, processPart, processMeasures, processMeasure, processElems,
    processElem, process_note_element, process_tie, duration_to_beats,
    pitch_to_midi, hC, assocFind, assocSet, valuesMax, noteToJson,
    sortByBeat, insertByBeat, round_beat_zero, round_beat_one, max_def]

/-! ## State reset across conversions and parts -/

/-- A C4 quarter note carrying a tie-start marker. -/
def tieStartNote : NoteElem := { c4NoteElem 24 with tieStart := true }

/-- A C4 quarter note carrying a tie-stop marker. -/
def tieStopNote : NoteElem := { c4NoteElem 24 with tieStop := true }

/-- Two-part document: part 1 holds a tie-start C4, part 2 holds a
tie-stop C4 of the same pitch, voice and staff. -/
def twoPartTieDoc : Doc :=
  { parts := [⟨[⟨[.attributes (some 24), .note tieStartNote]⟩]⟩,
              ⟨[⟨[.note tieStopNote]⟩]⟩] }

/-- The second part of `twoPartTieDoc` converted on its own. -/
def tieStopOnlyDoc : Doc :=
  { parts := [⟨[⟨[.attributes (some 24), .note tieStopNote]⟩]⟩] }

/-- Counterexample to C2: open tie entries do carry over from one part to
the next.  Converting `twoPartTieDoc` matches the part-2 tie-stop note
against the tie opened in part 1: the part-1 note's duration is extended
to 2 and the part-2 note is never emitted, so the output is a single
note — whereas the same part processed alone (with no earlier-part state)
emits its note unmerged with duration 1. -/
theorem tie_crosses_parts :
    convertFile twoPartTieDoc =
      .ok { title := "Untitled", bpm := 120,
            notes := [{ pitch := 60, beat := 0, duration := 2,
                          velocity := 80 }] } ∧
    convertFile tieStopOnlyDoc =
      .ok { title := "Untitled", bpm := 120,
            notes := [{ pitch := 60, beat := 0, duration := 1,
                          velocity := 80 }] } := by
  have hC : noteMap "C" = some 0 := by decide
  constructor
  · norm_num [convertFile, convert_file, twoPartTieDoc, tieStartNote,
      tieStopNote, c4NoteElem, initState, processParts, processPart,
      processMeasures, processMeasure, processElems, processElem,
      process_note_element, process_tie, duration_to_beats, pitch_to_midi,
      hC, assocFind, assocSet, assocErase, modifyNth, valuesMax, noteToJson,
      sortByBeat, insertByBeat, round_beat_zero, round_beat_two, max_def]
  · norm_num [convertFile, convert_file, tieStopOnlyDoc, tieStopNote,
      c4NoteElem, initState, processParts, processPart, processMeasures,
      processMeasure, processElems, processElem, process_note_element,
      process_tie, duration_to_beats, pitch_to_midi, hC, assocFind,
      assocSet, valuesMax, noteToJson, sortByBeat, insertByBeat,
      round_beat_zero, round_beat_one, max_def]

/-- C2 (amended): a top-level conversion resets the part-wide cursor, the
note list, the tie table and the voice-cursor map — its result depends on
the incoming converter state only through the persisting `divisions` and
chord-anchor values — and the start of each part resets the cursor and
voice map again; open tie entries, however, persist across parts (see the
counterexample). -/
theorem convert_file_resets_state :
    (∀ s₁ s₂ doc, s₁.divisions = s₂.divisions →
        s₁.chord_start_beat = s₂.chord_start_beat →
        convert_file s₁ doc = convert_file s₂ doc) ∧
    (∀ s₁ s₂ p, s₁.divisions = s₂.divisions →
        s₁.chord_start_beat = s₂.chord_start_beat →
        s₁.notes = s₂.notes → s₁.active_ties = s₂.active_ties →
        processPart s₁ p = processPart s₂ p) := by
  constructor
  · intro s₁ s₂ doc hdiv hcsb
    unfold convert_file
    cases s₁
    cases s₂
    simp_all
  · intro s₁ s₂ p hdiv hcsb hnotes hties
    unfold processPart
    cases s₁
    cases s₂
    simp_all

/-- Concrete instance of the reset property: converter state left over
from earlier use (cursor, notes, open ties, voice cursors) does not
affect a fresh conversion, and per-part processing ignores the incoming
cursor and voice map. -/
theorem convert_file_resets_state_witness :
    convert_file
      { initState with
          current_beat := 7
          notes := [{ pitch := 1, beat := 3, duration := 5 }]
          active_ties := [((1, "9", 2), 0)]
          voice_beats := [(("9", 2), 7)] }
      twoQuarterDoc = convert_file initState twoQuarterDoc ∧
    processPart
      { initState with
          current_beat := 7
          voice_beats := [(("9", 2), 7)] }
      ⟨[⟨[.note (c4NoteElem 24)]⟩]⟩ =
      processPart initState ⟨[⟨[.note (c4NoteElem 24)]⟩]⟩ :=
  ⟨convert_file_resets_state.1 _ _ _ rfl rfl,
   convert_file_resets_state.2 _ _ _ rfl rfl rfl rfl⟩

/-! ## Association-list (dict) lemmas -/

/-- Looking up the key just assigned yields the assigned value. -/
theorem assocFind_assocSet_self {κ α : Type} [DecidableEq κ] (k : κ)
    (v : α) (l : List (κ × α)) : assocFind k (assocSet k v l) = some v := by
  induction l with
  | nil => simp [assocSet, assocFind]
  | cons p rest ih =>
      by_cases h : p.1 = k
      · simp [assocSet, assocFind, h]
      · simpa [assocSet, assocFind, h] using ih

/-- Assignment to one key does not change lookups of other keys. -/
theorem assocFind_assocSet_ne {κ α : Type} [DecidableEq κ] (k k' : κ)
    (v : α) (l : List (κ × α)) (h : k' ≠ k) :
    assocFind k' (assocSet k v l) = assocFind k' l := by
  induction l with
  | nil =>
      simp only [assocSet, assocFind]
      rw [if_neg (Ne.symm h)]
  | cons p rest ih =>
      obtain ⟨pk, pv⟩ := p
      by_cases hp : pk = k
      · subst hp
        simp only [assocSet, if_pos rfl, assocFind]
        rw [if_neg (Ne.symm h), if_neg (Ne.symm h)]
      · simp only [assocSet, if_neg hp, assocFind]
        by_cases hpk : pk = k'
        · simp [hpk]
        · simp [hpk, ih]

/-! ## Notes without a duration -/

/-- A note element with a voice not seen before and no duration child. -/
def durationlessNote : NoteElem := { voice := some "2", duration := none }

/-- A quarter note then a full-measure backup: after this prefix the
part-wide cursor is back at the measure start. -/
def backupPrefix : List MeasureElem :=
  [.note (c4NoteElem 24), .backup (some 24)]

/-- Counterexample to C4: processing a duration-less note element can
change the part-wide cursor.  After a note and a full backup the cursor
is 0; processing the duration-less note recomputes the cursor as the
maximum of all voice cursors, moving it to 1, while still emitting no
note. -/
theorem durationless_note_moves_cursor :
    (processElems 0 backupPrefix initState 0).map
        (fun r => (r.1.current_beat, r.1.notes.length)) = .ok (0, 1) ∧
    (processElems 0 (backupPrefix ++ [.note durationlessNote]) initState
          0).map
        (fun r => (r.1.current_beat, r.1.notes.length)) = .ok (1, 1) := by
  have hC : noteMap "C" = some 0 := by decide
  constructor
  · norm_num +decide [backupPrefix, c4NoteElem, initState, processElems,
      processElem, process_note_element, process_tie, duration_to_beats,
      pitch_to_midi, hC, assocFind, assocSet, valuesMax, max_def, Except.map]
  · norm_num +decide [backupPrefix, durationlessNote, c4NoteElem, initState,
      processElems, processElem, process_note_element, process_tie,
      duration_to_beats, pitch_to_midi, hC, assocFind, assocSet, valuesMax,
      max_def, Except.map]

/-- C4 (amended): processing a note element with no duration child emits
no note, changes neither the note list, the tie table nor the divisions
value, and leaves the value of every already-present voice cursor
unchanged; the part-wide cursor, however, may be recomputed (as the
maximum of the voice cursors), and an unseen voice may be seeded. -/
theorem durationless_note_step (mstart : ℚ) (s : ConvState) (md : ℚ)
    (n : NoteElem) (hd : n.duration = none) :
    (processElem mstart s md (.note n)).map (fun r => r.1.notes) =
      .ok s.notes ∧
    (processElem mstart s md (.note n)).map (fun r => r.1.active_ties) =
      .ok s.active_ties ∧
    (processElem mstart s md (.note n)).map (fun r => r.1.divisions) =
      .ok s.divisions ∧
    ∀ k v, assocFind k s.voice_beats = some v →
      (processElem mstart s md (.note n)).map
          (fun r => assocFind k r.1.voice_beats) = .ok (some v) := by
  have hvb : ∀ k v, assocFind k s.voice_beats = some v →
      (processElem mstart s md (.note n)).map
          (fun r => assocFind k r.1.voice_beats) = .ok (some v) := by
    intro k v hkv
    by_cases hk : k = (n.voice.getD "1", n.staff.getD 1)
    · subst hk
      rcases hfind : assocFind (n.voice.getD "1", n.staff.getD 1)
          s.voice_beats with _ | v₀
      · rw [hfind] at hkv
        exact absurd hkv (by simp)
      · rw [hfind] at hkv
        injection hkv with hv
        subst hv
        cases hc : n.chord <;>
          simp [processElem, process_note_element, hd, hfind, hc,
            Except.map, assocFind_assocSet_self]
    · rcases hfind : assocFind (n.voice.getD "1", n.staff.getD 1)
          s.voice_beats with _ | v₀ <;> cases hc : n.chord <;>
        simp [processElem, process_note_element, hd, hfind, hc, Except.map,
          assocFind_assocSet_ne _ _ _ _ hk, hkv]
  refine ⟨?_, ?_, ?_, hvb⟩ <;>
    rcases hfind : assocFind (n.voice.getD "1", n.staff.getD 1)
        s.voice_beats with _ | v₀ <;>
      cases hc : n.chord <;>
        simp [processElem, process_note_element, hd, hfind, hc, Except.map]

/-- Concrete instance of the amended duration-less-note property, at the
state reached after `backupPrefix`. -/
theorem durationless_note_step_witness :
    (processElem 0
        { initState with
            notes := [{ pitch := 60, beat := 0, duration := 1 }]
            voice_beats := [(("1", 1), 1)] }
        1 (.note durationlessNote)).map (fun r => r.1.notes) =
      .ok [{ pitch := 60, beat := 0, duration := 1 }] ∧
    (processElem 0
        { initState with
            notes := [{ pitch := 60, beat := 0, duration := 1 }]
            voice_beats := [(("1", 1), 1)] }
        1 (.note durationlessNote)).map
        (fun r => assocFind ("1", 1) r.1.voice_beats) = .ok (some 1) :=
  ⟨(durationless_note_step 0 _ 1 durationlessNote rfl).1,
   (durationless_note_step 0 _ 1 durationlessNote rfl).2.2.2 ("1", 1) 1
     (by decide)⟩

/-! ## Tie merge across a pair of consecutive notes -/

/-- Updating the index just past `l` inside `l ++ [a]` rewrites `a`. -/
theorem modifyNth_append_length {α : Type} (f : α → α) (l : List α)
    (a : α) : modifyNth f l.length (l ++ [a]) = l ++ [f a] := by
  induction l with
  | nil => rfl
  | cons x xs ih => simp [modifyNth, ih]

/-- C3: processing a tie-start note of duration `d1` immediately followed
by a tie-stop note of the same pitch, voice and staff with duration `d2`
appends exactly one note for the pair: it carries the first note's onset
beat and the summed duration `d1 + d2` (in beats), and the second note is
never separately present. -/
theorem tie_pair_merged (s : ConvState) (mstart md : ℚ) (n1 n2 : NoteElem)
    (p : PitchElem) (off d1 d2 : ℤ)
    (hdiv : s.divisions ≠ 0)
    (h1d : n1.duration = some d1) (h1r : n1.rest = false)
    (h1p : n1.pitch = some p) (hstep : noteMap p.step = some off)
    (h1c : n1.chord = false) (h1ts : n1.tieStart = true)
    (h1tp : n1.tieStop = false)
    (h2d : n2.duration = some d2) (h2r : n2.rest = false)
    (h2p : n2.pitch = some p)
    (h2c : n2.chord = false) (h2ts : n2.tieStart = false)
    (h2tp : n2.tieStop = true)
    (hv : n2.voice = n1.voice) (hst : n2.staff = n1.staff) :
    (processElems mstart [.note n1, .note n2] s md).map
        (fun r => r.1.notes) =
      .ok (s.notes ++
        [{ pitch := (p.octave + 1) * 12 + off + p.alter.getD 0
           beat := (assocFind (n1.voice.getD "1", n1.staff.getD 1)
               s.voice_beats).getD s.current_beat
           duration := (d1 : ℚ) / (s.divisions : ℚ) +
             (d2 : ℚ) / (s.divisions : ℚ)
           velocity := 80
           voice := n1.voice.getD "1"
           staff := n1.staff.getD 1 }]) := by
  rcases hfind : assocFind (n1.voice.getD "1", n1.staff.getD 1)
      s.voice_beats with _ | v₀ <;>
    simp [processElems, processElem, process_note_element, process_tie,
      duration_to_beats, pitch_to_midi, hdiv, h1d, h1r, h1p, hstep, h1c,
      h1ts, h1tp, h2d, h2r, h2p, h2c, h2ts, h2tp, hv, hst, hfind,
      Except.map, assocFind_assocSet_self, modifyNth_append_length]

/-- Concrete instance of the tie-merge pair property: two tied C4 quarter
notes merge into a single note of duration 2 at beat 0. -/
theorem tie_pair_merged_witness :
    (processElems 0 [.note tieStartNote, .note tieStopNote] initState
        0).map (fun r => r.1.notes) =
      .ok [{ pitch := 60, beat := 0, duration := 2, velocity := 80,
             voice := "1", staff := 1 }] := by
  have h := tie_pair_merged initState 0 0 tieStartNote tieStopNote
    { step := "C", alter := none, octave := 4 } 0 24 24 (by decide) rfl rfl
    rfl (by decide) rfl rfl rfl rfl rfl rfl rfl rfl rfl rfl rfl
  simpa [initState, assocFind, one_add_one_eq_two] using h

/-! ## Backup and new voices -/

/-- C6: inside a measure, a `backup` element carrying the full elapsed
duration since the measure start resets the shared part-wide cursor to
the measure start, so the next note of a voice not seen before in the
part is seeded there and receives the measure's starting beat as its
onset. -/
theorem backup_then_new_voice (s : ConvState) (mstart md : ℚ) (db : ℤ)
    (n : NoteElem) (p : PitchElem) (off d : ℤ)
    (hdiv : s.divisions ≠ 0)
    (hfull : (db : ℚ) / (s.divisions : ℚ) = s.current_beat - mstart)
    (hunseen : assocFind (n.voice.getD "1", n.staff.getD 1)
        s.voice_beats = none)
    (hd : n.duration = some d) (hr : n.rest = false)
    (hp : n.pitch = some p) (hstep : noteMap p.step = some off)
    (hc : n.chord = false) (htp : n.tieStop = false) :
    (processElems mstart [.backup (some db), .note n] s md).map
        (fun r => r.1.notes) =
      .ok (s.notes ++
        [{ pitch := (p.octave + 1) * 12 + off + p.alter.getD 0
           beat := mstart
           duration := (d : ℚ) / (s.divisions : ℚ)
           velocity := 80
           voice := n.voice.getD "1"
           staff := n.staff.getD 1 }]) := by
  cases hts : n.tieStart <;>
    simp [processElems, processElem, process_note_element, process_tie,
      duration_to_beats, pitch_to_midi, hdiv, hunseen, hd, hr, hp, hstep,
      hc, htp, hts, Except.map, assocFind_assocSet_self]

/-- Concrete instance of the backup/new-voice property: after one
elapsed quarter note, a backup of 24 divisions followed by voice 2's
first note puts that note at the measure's starting beat 0. -/
theorem backup_then_new_voice_witness :
    (processElems 0
        [.backup (some 24),
         .note { c4NoteElem 24 with voice := some "2" }]
        { initState with
            current_beat := 1
            voice_beats := [(("1", 1), 1)] }
        1).map (fun r => r.1.notes) =
      .ok [{ pitch := 60, beat := 0, duration := 1, velocity := 80,
             voice := "2", staff := 1 }] := by
  have h := backup_then_new_voice
    { initState with current_beat := 1, voice_beats := [(("1", 1), 1)] }
    0 1 24 { c4NoteElem 24 with voice := some "2" }
    { step := "C", alter := none, octave := 4 } 0 24 (by decide)
    (by simp [initState]) (by decide) rfl rfl rfl (by decide) rfl rfl
  simpa [initState] using h

/-! ## Nonnegativity invariant for completed conversions -/

/-- All integer values of a measure element that feed cursor arithmetic
are nonnegative. -/
def elemNonnegB : MeasureElem → Bool
  | .attributes dv =>
      match dv with
      | some v => decide (0 ≤ v)
      | none => true
  | .note n =>
      match n.duration with
      | some d => decide (0 ≤ d)
      | none => true
  | .forward dOpt =>
      match dOpt with
      | some f => decide (0 ≤ f)
      | none => true
  | _ => true

/-- All durations, forward amounts and declared divisions of a document
are nonnegative. -/
def docNonnegB (doc : Doc) : Bool :=
  doc.parts.all fun p => p.measures.all fun m => m.elems.all elemNonnegB

/-- Conversion-state invariant: the divisions value, both beat anchors,
every voice cursor and every collected note's beat and duration are
nonnegative. -/
def StateInv (s : ConvState) : Prop :=
  0 ≤ s.divisions ∧ 0 ≤ s.current_beat ∧ 0 ≤ s.chord_start_beat ∧
  (∀ pr ∈ s.voice_beats, 0 ≤ pr.2) ∧
  (∀ nt ∈ s.notes, 0 ≤ nt.beat ∧ 0 ≤ nt.duration)

/-- The max-fold over voice cursors stays at least its seed. -/
theorem foldl_max_le_seed (l : List (VoiceKey × ℚ)) (a : ℚ) :
    a ≤ l.foldl (fun acc p => max acc p.2) a := by
  induction l generalizing a with
  | nil => exact le_refl a
  | cons p rest ih => exact le_trans (le_max_left a p.2) (ih (max a p.2))

/-- The maximum of nonnegative voice cursors is nonnegative. -/
theorem valuesMax_nonneg (l : List (VoiceKey × ℚ))
    (h : ∀ pr ∈ l, 0 ≤ pr.2) : 0 ≤ valuesMax l := by
  cases l with
  | nil => exact le_refl 0
  | cons p rest =>
      exact le_trans (h p (by simp)) (foldl_max_le_seed rest p.2)

/-- A found value in a dict of nonnegative values is nonnegative. -/
theorem assocFind_nonneg (k : VoiceKey) (l : List (VoiceKey × ℚ)) (v : ℚ)
    (h : ∀ pr ∈ l, 0 ≤ pr.2) (hf : assocFind k l = some v) : 0 ≤ v := by
  induction l with
  | nil => simp [assocFind] at hf
  | cons p rest ih =>
      by_cases hp : p.1 = k
      · rw [assocFind, if_pos hp] at hf
        injection hf with hf
        exact hf ▸ h p (by simp)
      · rw [assocFind, if_neg hp] at hf
        exact ih (fun q hq => h q (List.mem_cons_of_mem _ hq)) hf

/-- A found-or-default value over a nonnegative dict with a nonnegative
default is nonnegative. -/
theorem assocFind_getD_nonneg (k : VoiceKey) (l : List (VoiceKey × ℚ))
    (c : ℚ) (h : ∀ pr ∈ l, 0 ≤ pr.2) (hc : 0 ≤ c) :
    0 ≤ (assocFind k l).getD c := by
  rcases hf : assocFind k l with _ | v
  · simpa using hc
  · simpa using assocFind_nonneg k l v h hf

/-- Dict assignment of a nonnegative value preserves nonnegativity of all
values. -/
theorem assocSet_nonneg (k : VoiceKey) (v : ℚ) (l : List (VoiceKey × ℚ))
    (h : ∀ pr ∈ l, 0 ≤ pr.2) (hv : 0 ≤ v) :
    ∀ pr ∈ assocSet k v l, 0 ≤ pr.2 := by
  induction l with
  | nil => simpa [assocSet] using hv
  | cons p rest ih =>
      by_cases hp : p.1 = k
      · rw [assocSet, if_pos hp]
        intro pr hpr
        rcases List.mem_cons.1 hpr with hh | hh
        · simpa [hh] using hv
        · exact h pr (List.mem_cons_of_mem _ hh)
      · rw [assocSet, if_neg hp]
        intro pr hpr
        rcases List.mem_cons.1 hpr with hh | hh
        · exact hh ▸ h p (by simp)
        · exact ih (fun q hq => h q (List.mem_cons_of_mem _ hq)) pr hh

/-- In-place modification through a property-preserving function keeps a
listwide property. -/
theorem modifyNth_forall {α : Type} (P : α → Prop) (f : α → α) (i : ℕ)
    (l : List α) (h : ∀ a ∈ l, P a) (hf : ∀ a, P a → P (f a)) :
    ∀ a ∈ modifyNth f i l, P a := by
  induction l generalizing i with
  | nil => simp [modifyNth]
  | cons x xs ih =>
      cases i with
      | zero =>
          intro a ha
          rcases List.mem_cons.1 ha with hh | hh
          · exact hh ▸ hf x (h x (by simp))
          · exact h a (List.mem_cons_of_mem _ hh)
      | succ j =>
          intro a ha
          rcases List.mem_cons.1 ha with hh | hh
          · exact hh ▸ h x (by simp)
          · exact ih j (fun q hq => h q (List.mem_cons_of_mem _ hq)) a hh

/-- Appending a note with nonnegative beat and duration preserves the
state invariant. -/
theorem append_note_inv (s : ConvState) (nt : Note) (hInv : StateInv s)
    (hb : 0 ≤ nt.beat) (hd : 0 ≤ nt.duration) :
    StateInv { s with notes := s.notes ++ [nt] } := by
  obtain ⟨h1, h2, h3, h4, h5⟩ := hInv
  refine ⟨h1, h2, h3, h4, ?_⟩
  intro x hx
  rcases List.mem_append.1 hx with hh | hh
  · exact h5 x hh
  · rcases List.mem_singleton.1 hh with rfl
    exact ⟨hb, hd⟩

/-- The voice-cursor advancement step of `process_measure` preserves the
invariant, and the updated measure duration stays nonnegative. -/
theorem advance_inv (s4 : ConvState) (vk : VoiceKey) (db mstart md : ℚ)
    (hInv : StateInv s4) (hdb : 0 ≤ db) (hmd : 0 ≤ md) :
    StateInv { s4 with
        voice_beats := assocSet vk
          ((assocFind vk s4.voice_beats).getD s4.current_beat + db)
          s4.voice_beats
        current_beat := valuesMax (assocSet vk
          ((assocFind vk s4.voice_beats).getD s4.current_beat + db)
          s4.voice_beats) } ∧
    0 ≤ max md (valuesMax (assocSet vk
      ((assocFind vk s4.voice_beats).getD s4.current_beat + db)
      s4.voice_beats) - mstart) := by
  obtain ⟨h1, h2, h3, h4, h5⟩ := hInv
  have hnn := assocSet_nonneg vk _ s4.voice_beats h4
    (add_nonneg (assocFind_getD_nonneg vk s4.voice_beats _ h4 h2) hdb)
  exact ⟨⟨h1, valuesMax_nonneg _ hnn, h3, hnn, h5⟩,
    le_trans hmd (le_max_left _ _)⟩

/-- `process_note_element` preserves the invariant, changes only the
voice map (by at most seeding an unseen voice with the nonnegative
cursor), and any note it builds has nonnegative beat and duration. -/
theorem process_note_element_inv (s : ConvState) (n : NoteElem)
    (s' : ConvState) (opt : Option Note) (hInv : StateInv s)
    (hd : ∀ d, n.duration = some d → 0 ≤ d)
    (h : process_note_element s n = .ok (s', opt)) :
    StateInv s' ∧ s'.notes = s.notes ∧ s'.active_ties = s.active_ties ∧
    s'.current_beat = s.current_beat ∧ s'.divisions = s.divisions ∧
    s'.chord_start_beat = s.chord_start_beat ∧
    ∀ nt, opt = some nt → 0 ≤ nt.beat ∧ 0 ≤ nt.duration := by
  obtain ⟨h1, h2, h3, h4, h5⟩ := hInv
  rcases hdur : n.duration with _ | d
  · simp [process_note_element, hdur] at h
    obtain ⟨rfl, rfl⟩ := h
    exact ⟨⟨h1, h2, h3, h4, h5⟩, rfl, rfl, rfl, rfl, rfl, by simp⟩
  · have hd0 : (0 : ℚ) ≤ (d : ℚ) / (s.divisions : ℚ) :=
      div_nonneg (by exact_mod_cast hd d hdur) (by exact_mod_cast h1)
    by_cases hdiv : s.divisions = 0
    · simp [process_note_element, hdur, duration_to_beats, hdiv] at h
    · rcases hrest : n.rest with _ | _
      · rcases hpitch : n.pitch with _ | p
        · simp [process_note_element, hdur, duration_to_beats, hdiv,
            hrest, hpitch] at h
          obtain ⟨rfl, rfl⟩ := h
          exact ⟨⟨h1, h2, h3, h4, h5⟩, rfl, rfl, rfl, rfl, rfl, by simp⟩
        · rcases hsm : noteMap p.step with _ | off
          · simp [process_note_element, hdur, duration_to_beats, hdiv,
              hrest, hpitch, pitch_to_midi, hsm] at h
          · rcases hfind : assocFind (n.voice.getD "1", n.staff.getD 1)
                s.voice_beats with _ | v₀
            · simp [process_note_element, hdur, duration_to_beats, hdiv,
                hrest, hpitch, pitch_to_midi, hsm, hfind,
                assocFind_assocSet_self] at h
              obtain ⟨rfl, rfl⟩ := h
              refine ⟨⟨h1, h2, h3, assocSet_nonneg _ _ _ h4 h2, h5⟩,
                rfl, rfl, rfl, rfl, rfl, ?_⟩
              intro nt hnt
              injection hnt with hnt
              subst hnt
              exact ⟨h2, hd0⟩
            · simp [process_note_element, hdur, duration_to_beats, hdiv,
                hrest, hpitch, pitch_to_midi, hsm, hfind] at h
              obtain ⟨rfl, rfl⟩ := h
              refine ⟨⟨h1, h2, h3, h4, h5⟩, rfl, rfl, rfl, rfl, rfl, ?_⟩
              intro nt hnt
              injection hnt with hnt
              subst hnt
              exact ⟨assocFind_nonneg _ _ _ h4 hfind, hd0⟩
      · simp [process_note_element, hdur, duration_to_beats, hdiv,
          hrest] at h
        obtain ⟨rfl, rfl⟩ := h
        exact ⟨⟨h1, h2, h3, h4, h5⟩, rfl, rfl, rfl, rfl, rfl, by simp⟩

/-- `process_tie` preserves the invariant when the incoming note has
nonnegative duration, and touches neither the cursors, the anchors, the
divisions value nor the voice map. -/
theorem process_tie_inv (s : ConvState) (n : NoteElem) (note : Note)
    (hInv : StateInv s) (hdur : 0 ≤ note.duration) :
    StateInv (process_tie s n note).2 ∧
    (process_tie s n note).2.current_beat = s.current_beat ∧
    (process_tie s n note).2.chord_start_beat = s.chord_start_beat ∧
    (process_tie s n note).2.divisions = s.divisions ∧
    (process_tie s n note).2.voice_beats = s.voice_beats := by
  obtain ⟨h1, h2, h3, h4, h5⟩ := hInv
  have hmod : ∀ (i : ℕ), ∀ nt ∈ modifyNth
      (fun t => { t with duration := t.duration + note.duration }) i
      s.notes, 0 ≤ nt.beat ∧ 0 ≤ nt.duration := fun i =>
    modifyNth_forall _ _ i _ h5 fun a ha => ⟨ha.1, add_nonneg ha.2 hdur⟩
  rcases hm : (if n.tieStop then
      assocFind (note.pitch, note.voice, note.staff) s.active_ties
    else none) with _ | idx <;> cases hts : n.tieStart <;>
    simp only [process_tie, hm, hts] <;>
    refine ⟨⟨h1, h2, h3, h4, ?_⟩, rfl, rfl, rfl, rfl⟩
  · exact h5
  · exact h5
  · exact hmod idx
  · exact hmod idx

/-- The tail of the note branch of `processElem`, once the element's
duration-in-beats has been computed (proof-side restatement used to
factor the invariant proof). -/
def noteStepTail (measureStart : ℚ) (s : ConvState) (md : ℚ)
    (n : NoteElem) (durationBeats : ℚ) : Except ConvErr (ConvState × ℚ) :=
  let voice := n.voice.getD "1"
  let staff := n.staff.getD 1
  let vk : VoiceKey := (voice, staff)
  let isChord := n.chord
  let s1 :=
    match assocFind vk s.voice_beats with
    | some _ => s
    | none =>
        { s with
           voice_beats := assocSet vk s.current_beat s.voice_beats }
  let s2 :=
    if isChord then s1
    else
      { s1 with
         chord_start_beat :=
           (assocFind vk s1.voice_beats).getD s1.current_beat }
  match process_note_element s2 n with
  | .error e => .error e
  | .ok (s3, noteOpt) =>
    let s4 :=
      match noteOpt with
      | none => s3
      | some note0 =>
        let note1 :=
          if isChord then { note0 with beat := s3.chord_start_beat }
          else note0
        let pr := process_tie s3 n note1
        if pr.1 then { pr.2 with notes := pr.2.notes ++ [note1] }
        else pr.2
    if isChord then .ok (s4, md)
    else
      let oldVb := (assocFind vk s4.voice_beats).getD s4.current_beat
      let newVb := assocSet vk (oldVb + durationBeats) s4.voice_beats
      let newCb := valuesMax newVb
      .ok ({ s4 with voice_beats := newVb, current_beat := newCb },
           max md (newCb - measureStart))

/-- The note branch of `processElem` is its duration computation followed
by `noteStepTail`. -/
theorem processElem_note_eq (measureStart : ℚ) (s : ConvState) (md : ℚ)
    (n : NoteElem) :
    processElem measureStart s md (.note n) =
      match (match n.duration with
             | some d => duration_to_beats s.divisions d
             | none => Except.ok 0) with
      | .error e => .error e
      | .ok durationBeats => noteStepTail measureStart s md n
          durationBeats := by
  obtain ⟨nv, ns, nd, nr, np, nc, nts, ntp⟩ := n
  rcases nd with _ | d <;> rfl

/-- The part of the note branch after voice seeding and chord-anchor
update, starting from the seeded state `s2` (proof-side restatement). -/
def noteStepAfterSeed (measureStart md db : ℚ) (n : NoteElem)
    (s2 : ConvState) : Except ConvErr (ConvState × ℚ) :=
  let vk : VoiceKey := (n.voice.getD "1", n.staff.getD 1)
  let isChord := n.chord
  match process_note_element s2 n with
  | .error e => .error e
  | .ok (s3, noteOpt) =>
    let s4 :=
      match noteOpt with
      | none => s3
      | some note0 =>
        let note1 :=
          if isChord then { note0 with beat := s3.chord_start_beat }
          else note0
        let pr := process_tie s3 n note1
        if pr.1 then { pr.2 with notes := pr.2.notes ++ [note1] }
        else pr.2
    if isChord then .ok (s4, md)
    else
      let oldVb := (assocFind vk s4.voice_beats).getD s4.current_beat
      let newVb := assocSet vk (oldVb + db) s4.voice_beats
      let newCb := valuesMax newVb
      .ok ({ s4 with voice_beats := newVb, current_beat := newCb },
           max md (newCb - measureStart))

/-- `noteStepTail` is voice seeding and chord-anchor update followed by
`noteStepAfterSeed`. -/
theorem noteStepTail_eq_afterSeed (measureStart : ℚ) (s : ConvState)
    (md db : ℚ) (n : NoteElem) :
    noteStepTail measureStart s md n db =
      noteStepAfterSeed measureStart md db n
        (let vk : VoiceKey := (n.voice.getD "1", n.staff.getD 1)
         let s1 :=
           match assocFind vk s.voice_beats with
           | some _ => s
           | none =>
               { s with
                  voice_beats := assocSet vk s.current_beat s.voice_beats }
         if n.chord then s1
         else
           { s1 with
              chord_start_beat :=
                (assocFind vk s1.voice_beats).getD s1.current_beat }) := by
  rfl

/-- The post-seeding note step preserves the invariant and the
measure-duration bound whenever the seeded state satisfies the invariant
and the computed duration-in-beats is nonnegative. -/
theorem noteStepAfterSeed_inv (mstart md db : ℚ) (n : NoteElem)
    (s2 s' : ConvState) (md' : ℚ)
    (hInv2 : StateInv s2) (hmd : 0 ≤ md) (hdb : 0 ≤ db)
    (hd : ∀ d, n.duration = some d → 0 ≤ d)
    (h : noteStepAfterSeed mstart md db n s2 = .ok (s', md')) :
    StateInv s' ∧ 0 ≤ md' := by
  rcases hpne : process_note_element s2 n with e | ⟨s3, opt⟩
  · rw [noteStepAfterSeed, hpne] at h
    exact absurd h (by simp)
  · obtain ⟨hi3, hnotes3, hties3, hcb3, hdiv3, hcsb3, hopt⟩ :=
      process_note_element_inv s2 n s3 opt hInv2 hd hpne
    rcases hoptc : opt with _ | note0
    · subst hoptc
      cases hc : n.chord
      · simp only [noteStepAfterSeed, hpne, hc, Bool.false_eq_true,
          if_false, Except.ok.injEq, Prod.mk.injEq] at h
        obtain ⟨rfl, rfl⟩ := h
        exact advance_inv s3 _ db mstart md hi3 hdb hmd
      · simp only [noteStepAfterSeed, hpne, hc, if_true, Except.ok.injEq,
          Prod.mk.injEq] at h
        obtain ⟨rfl, rfl⟩ := h
        exact ⟨hi3, hmd⟩
    · subst hoptc
      have hnote0 := hopt note0 rfl
      cases hc : n.chord
      · have hdur1 : 0 ≤ note0.duration := hnote0.2
        obtain ⟨hiP, hPcb, hPcsb, hPdiv, hPvb⟩ :=
          process_tie_inv s3 n note0 hi3 hdur1
        have hs4 : ∀ b, (process_tie s3 n note0).1 = b →
            StateInv (if b then
              { (process_tie s3 n note0).2 with
                 notes := (process_tie s3 n note0).2.notes ++ [note0] }
            else (process_tie s3 n note0).2) := by
          intro b hb
          cases b
          · simpa using hiP
          · simpa using append_note_inv _ note0 hiP hnote0.1 hnote0.2
        cases hpr : (process_tie s3 n note0).1
        · simp only [noteStepAfterSeed, hpne, hc, hpr,
            Bool.false_eq_true, if_false, Except.ok.injEq,
            Prod.mk.injEq] at h
          obtain ⟨rfl, rfl⟩ := h
          exact advance_inv _ _ db mstart md (by simpa using hs4 false hpr)
            hdb hmd
        · simp only [noteStepAfterSeed, hpne, hc, hpr, if_true,
            Bool.false_eq_true, if_false, Except.ok.injEq,
            Prod.mk.injEq] at h
          obtain ⟨rfl, rfl⟩ := h
          exact advance_inv _ _ db mstart md (by simpa using hs4 true hpr)
            hdb hmd
      · have hb1 : 0 ≤ s3.chord_start_beat := by
          rw [hcsb3]
          exact hInv2.2.2.1
        have hdur1 : 0 ≤ (Note.mk note0.pitch s3.chord_start_beat
            note0.duration note0.velocity note0.voice note0.staff).duration :=
          hnote0.2
        obtain ⟨hiP, hPcb, hPcsb, hPdiv, hPvb⟩ :=
          process_tie_inv s3 n _ hi3 hdur1
        have hs4 : ∀ b, (process_tie s3 n { note0 with
            beat := s3.chord_start_beat }).1 = b →
            StateInv (if b then
              { (process_tie s3 n { note0 with
                    beat := s3.chord_start_beat }).2 with
                 notes := (process_tie s3 n { note0 with
                    beat := s3.chord_start_beat }).2.notes ++
                   [{ note0 with beat := s3.chord_start_beat }] }
            else (process_tie s3 n { note0 with
              beat := s3.chord_start_beat }).2) := by
          intro b hb
          cases b
          · simpa using hiP
          · simpa using append_note_inv _
              { note0 with beat := s3.chord_start_beat } hiP hb1 hnote0.2
        cases hpr : (process_tie s3 n { note0 with
            beat := s3.chord_start_beat }).1
        · simp only [noteStepAfterSeed, hpne, hc, hpr, if_true,
            Bool.false_eq_true, if_false, Except.ok.injEq,
            Prod.mk.injEq] at h
          obtain ⟨rfl, rfl⟩ := h
          exact ⟨by simpa using hs4 false hpr, hmd⟩
        · simp only [noteStepAfterSeed, hpne, hc, hpr, if_true,
            Except.ok.injEq, Prod.mk.injEq] at h
          obtain ⟨rfl, rfl⟩ := h
          exact ⟨by simpa using hs4 true hpr, hmd⟩

/-- Voice seeding and chord-anchor update preserve the invariant. -/
theorem seed_inv (s : ConvState) (n : NoteElem) (hInv : StateInv s) :
    StateInv
      (let vk : VoiceKey := (n.voice.getD "1", n.staff.getD 1)
       let s1 :=
         match assocFind vk s.voice_beats with
         | some _ => s
         | none =>
             { s with
                voice_beats := assocSet vk s.current_beat s.voice_beats }
       if n.chord then s1
       else
         { s1 with
            chord_start_beat :=
              (assocFind vk s1.voice_beats).getD s1.current_beat }) := by
  obtain ⟨h1, h2, h3, h4, h5⟩ := hInv
  have hset := assocSet_nonneg (n.voice.getD "1", n.staff.getD 1)
    s.current_beat s.voice_beats h4 h2
  rcases hfind : assocFind (n.voice.getD "1", n.staff.getD 1)
      s.voice_beats with _ | v₀ <;> cases hc : n.chord <;>
    simp only [hfind, hc, Bool.false_eq_true, if_false, if_true]
  · exact ⟨h1, h2, assocFind_getD_nonneg _ _ _ hset h2, hset, h5⟩
  · exact ⟨h1, h2, h3, hset, h5⟩
  · exact ⟨h1, h2, assocFind_nonneg _ _ _ h4 hfind, h4, h5⟩
  · exact ⟨h1, h2, h3, h4, h5⟩

/-- One element step of `process_measure` preserves the invariant and the
nonnegative measure duration, for elements with nonnegative declared
values and a nonnegative measure start. -/
theorem processElem_inv (mstart : ℚ) (s : ConvState) (md : ℚ)
    (e : MeasureElem) (s' : ConvState) (md' : ℚ)
    (hInv : StateInv s) (hmd : 0 ≤ md) (hms : 0 ≤ mstart)
    (he : elemNonnegB e = true)
    (h : processElem mstart s md e = .ok (s', md')) :
    StateInv s' ∧ 0 ≤ md' := by
  obtain ⟨h1, h2, h3, h4, h5⟩ := hInv
  cases e with
  | attributes dv =>
      rcases dv with _ | v
      · simp only [processElem, Except.ok.injEq, Prod.mk.injEq] at h
        obtain ⟨rfl, rfl⟩ := h
        exact ⟨⟨h1, h2, h3, h4, h5⟩, hmd⟩
      · have hv : (0 : ℤ) ≤ v := by simpa [elemNonnegB] using he
        simp only [processElem, Except.ok.injEq, Prod.mk.injEq] at h
        obtain ⟨rfl, rfl⟩ := h
        exact ⟨⟨hv, h2, h3, h4, h5⟩, hmd⟩
  | backup dOpt =>
      rcases dOpt with _ | d
      · simp only [processElem, Except.ok.injEq, Prod.mk.injEq] at h
        obtain ⟨rfl, rfl⟩ := h
        exact ⟨⟨h1, h2, h3, h4, h5⟩, hmd⟩
      · by_cases hdiv : s.divisions = 0
        · simp [processElem, duration_to_beats, hdiv] at h
        · simp only [processElem, duration_to_beats, if_neg hdiv,
            Except.ok.injEq, Prod.mk.injEq] at h
          obtain ⟨rfl, rfl⟩ := h
          exact ⟨⟨h1, hms, h3, h4, h5⟩, hmd⟩
  | forward dOpt =>
      rcases dOpt with _ | f
      · simp only [processElem, Except.ok.injEq, Prod.mk.injEq] at h
        obtain ⟨rfl, rfl⟩ := h
        exact ⟨⟨h1, h2, h3, h4, h5⟩, hmd⟩
      · have hf : (0 : ℤ) ≤ f := by simpa [elemNonnegB] using he
        by_cases hdiv : s.divisions = 0
        · simp [processElem, duration_to_beats, hdiv] at h
        · simp only [processElem, duration_to_beats, if_neg hdiv,
            Except.ok.injEq, Prod.mk.injEq] at h
          obtain ⟨rfl, rfl⟩ := h
          refine ⟨⟨h1, add_nonneg h2 (div_nonneg ?_ ?_), h3, h4, h5⟩, hmd⟩
          · exact_mod_cast hf
          · exact_mod_cast h1
  | other =>
      simp only [processElem, Except.ok.injEq, Prod.mk.injEq] at h
      obtain ⟨rfl, rfl⟩ := h
      exact ⟨⟨h1, h2, h3, h4, h5⟩, hmd⟩
  | note n =>
      have hd : ∀ d, n.duration = some d → 0 ≤ d := by
        intro d hdur
        have he' := he
        simp only [elemNonnegB, hdur, decide_eq_true_eq] at he'
        exact he'
      rw [processElem_note_eq] at h
      rcases hdur : n.duration with _ | d
      · rw [hdur] at h
        simp only [] at h
        rw [noteStepTail_eq_afterSeed] at h
        exact noteStepAfterSeed_inv mstart md 0 n _ s' md'
          (seed_inv s n ⟨h1, h2, h3, h4, h5⟩) hmd (le_refl 0) hd h
      · rw [hdur] at h
        by_cases hdiv : s.divisions = 0
        · simp [duration_to_beats, hdiv] at h
        · simp only [duration_to_beats, if_neg hdiv] at h
          rw [noteStepTail_eq_afterSeed] at h
          refine noteStepAfterSeed_inv mstart md _ n _ s' md'
            (seed_inv s n ⟨h1, h2, h3, h4, h5⟩) hmd
            (div_nonneg ?_ ?_) hd h
          · exact_mod_cast hd d hdur
          · exact_mod_cast h1

/-- The element loop preserves the invariant and the measure-duration
bound. -/
theorem processElems_inv (mstart : ℚ) (elems : List MeasureElem)
    (s : ConvState) (md : ℚ) (s' : ConvState) (md' : ℚ)
    (hInv : StateInv s) (hmd : 0 ≤ md) (hms : 0 ≤ mstart)
    (he : elems.all elemNonnegB = true)
    (h : processElems mstart elems s md = .ok (s', md')) :
    StateInv s' ∧ 0 ≤ md' := by
  induction elems generalizing s md with
  | nil =>
      simp only [processElems, Except.ok.injEq, Prod.mk.injEq] at h
      obtain ⟨rfl, rfl⟩ := h
      exact ⟨hInv, hmd⟩
  | cons e rest ih =>
      simp only [List.all_cons, Bool.and_eq_true] at he
      rcases hstep : processElem mstart s md e with err | ⟨s₁, md₁⟩
      · rw [processElems, hstep] at h
        exact absurd h (by simp)
      · rw [processElems, hstep] at h
        obtain ⟨hi₁, hmd₁⟩ :=
          processElem_inv mstart s md e s₁ md₁ hInv hmd hms he.1 hstep
        exact ih s₁ md₁ hi₁ hmd₁ he.2 h

/-- Processing a measure preserves the invariant. -/
theorem processMeasure_inv (s : ConvState) (m : Measure) (s' : ConvState)
    (hInv : StateInv s) (he : m.elems.all elemNonnegB = true)
    (h : processMeasure s m = .ok s') : StateInv s' := by
  rcases hloop : processElems s.current_beat m.elems s 0 with err | ⟨s₁, md⟩
  · rw [processMeasure, hloop] at h
    exact absurd h (by simp)
  · obtain ⟨hi₁, hmd₁⟩ := processElems_inv s.current_beat m.elems s 0 s₁ md
      hInv (le_refl 0) hInv.2.1 he hloop
    simp only [processMeasure, hloop] at h
    by_cases hpos : (0 : ℚ) < md
    · rw [if_pos hpos] at h
      injection h with h
      subst h
      exact ⟨hi₁.1, add_nonneg hInv.2.1 hmd₁, hi₁.2.2⟩
    · rw [if_neg hpos] at h
      injection h with h
      subst h
      exact hi₁

/-- The measure loop preserves the invariant. -/
theorem processMeasures_inv (ms : List Measure) (s s' : ConvState)
    (hInv : StateInv s)
    (he : ms.all (fun m => m.elems.all elemNonnegB) = true)
    (h : processMeasures ms s = .ok s') : StateInv s' := by
  induction ms generalizing s with
  | nil =>
      simp only [processMeasures, Except.ok.injEq] at h
      exact h ▸ hInv
  | cons m rest ih =>
      simp only [List.all_cons, Bool.and_eq_true] at he
      rcases hm : processMeasure s m with err | s₁
      · rw [processMeasures, hm] at h
        exact absurd h (by simp)
      · rw [processMeasures, hm] at h
        exact ih s₁ (processMeasure_inv s m s₁ hInv he.1 hm) he.2 h

/-- The part loop preserves the invariant. -/
theorem processParts_inv (ps : List ScorePart) (s s' : ConvState)
    (hInv : StateInv s)
    (he : ps.all
      (fun p => p.measures.all fun m => m.elems.all elemNonnegB) = true)
    (h : processParts ps s = .ok s') : StateInv s' := by
  induction ps generalizing s with
  | nil =>
      simp only [processParts, Except.ok.injEq] at h
      exact h ▸ hInv
  | cons p rest ih =>
      simp only [List.all_cons, Bool.and_eq_true] at he
      rcases hp : processPart s p with err | s₁
      · rw [processParts, hp] at h
        exact absurd h (by simp)
      · rw [processParts, hp] at h
        refine ih s₁ (processMeasures_inv p.measures _ s₁ ?_ he.1 hp) he.2 h
        exact ⟨hInv.1, le_refl 0, hInv.2.2.1, by simp, hInv.2.2.2.2⟩

/-- The quantizer preserves nonnegativity. -/
theorem round_beat_nonneg (x : ℚ) (hx : 0 ≤ x) : 0 ≤ round_beat x := by
  unfold round_beat
  split_ifs with hc1 hc2 hc3
  · rw [abs_lt] at hc1
    have : (-1 : ℤ) < pyRound x := by
      have : (-1 : ℚ) < (pyRound x : ℚ) := by linarith [hc1.1]
      exact_mod_cast this
    have : (0 : ℤ) ≤ pyRound x := by omega
    exact_mod_cast this
  · rw [abs_lt] at hc2
    have hm : (-1 : ℤ) < pyRound (x * 2) := by
      have : (-1 : ℚ) < (pyRound (x * 2) : ℚ) := by linarith [hc2.1]
      exact_mod_cast this
    have h0 : (0 : ℤ) ≤ pyRound (x * 2) := by omega
    exact div_nonneg (by exact_mod_cast h0) (by norm_num)
  · rw [abs_lt] at hc3
    have hm : (-1 : ℤ) < pyRound (x * 4) := by
      have : (-1 : ℚ) < (pyRound (x * 4) : ℚ) := by linarith [hc3.1]
      exact_mod_cast this
    have h0 : (0 : ℤ) ≤ pyRound (x * 4) := by omega
    exact div_nonneg (by exact_mod_cast h0) (by norm_num)
  · exact hx

/-- Membership in a beat-insertion. -/
theorem mem_insertByBeat (x y : JsonNote) (l : List JsonNote) :
    y ∈ insertByBeat x l ↔ y = x ∨ y ∈ l := by
  induction l with
  | nil => simp [insertByBeat]
  | cons z zs ih =>
      by_cases hz : z.beat < x.beat
      · simp only [insertByBeat, if_pos hz, List.mem_cons, ih]
        tauto
      · simp only [insertByBeat, if_neg hz, List.mem_cons]

/-- The stable beat sort neither adds nor removes notes. -/
theorem mem_sortByBeat (y : JsonNote) (l : List JsonNote) :
    y ∈ sortByBeat l ↔ y ∈ l := by
  induction l with
  | nil => simp [sortByBeat]
  | cons x xs ih => simp [sortByBeat, mem_insertByBeat, ih]

/-- C5 (amended): for every document whose declared duration, forward and
divisions values are nonnegative, every note of a completed conversion
has `beat ≥ 0` and `duration ≥ 0`. -/
theorem conversion_notes_nonneg (doc : Doc) (out : ConvOutput)
    (hnn : docNonnegB doc = true) (h : convertFile doc = .ok out) :
    ∀ jn ∈ out.notes, 0 ≤ jn.beat ∧ 0 ≤ jn.duration := by
  intro jn hjn
  simp only [convertFile, convert_file] at h
  rcases hp : processParts doc.parts
      { initState with
         current_beat := 0
         notes := []
         active_ties := []
         voice_beats := [] } with e | s1
  · rw [hp] at h
    exact absurd h (by simp)
  · rw [hp] at h
    simp only [Except.ok.injEq] at h
    subst h
    have hi : StateInv s1 := by
      refine processParts_inv doc.parts _ s1
        ⟨by norm_num [initState], le_refl 0, by norm_num [initState],
         by simp, by simp⟩ ?_ hp
      simpa [docNonnegB] using hnn
    obtain ⟨nt, hnt, rfl⟩ :=
      List.mem_map.1 ((mem_sortByBeat _ _).1 hjn)
    have hb := hi.2.2.2.2 nt hnt
    exact ⟨round_beat_nonneg _ hb.1, round_beat_nonneg _ hb.2⟩

/-- Document declaring divisions 24 and containing a single pitched,
untied C4 note of duration 0. -/
def zeroDurationDoc : Doc :=
  { parts := [⟨[⟨[.attributes (some 24), .note (c4NoteElem 0)]⟩]⟩] }

/-- The quantizer fixes -1. -/
theorem round_beat_neg_one : round_beat (-1 : ℚ) = -1 :=
  round_beat_fixed_of_eq (-1) (-4) (by norm_num)

/-- Document declaring divisions 24 whose first note has the (parseable)
negative duration -24, followed by an ordinary quarter note. -/
def negDurationDoc : Doc :=
  { parts := [⟨[⟨[.attributes (some 24), .note (c4NoteElem (-24)),
      .note (c4NoteElem 24)]⟩]⟩] }

/-- Counterexample to C5 as stated: the conversion of `zeroDurationDoc`
completes with a note of duration 0 in its output, violating
`duration > 0`; and the conversion of `negDurationDoc` (a negative
declared duration, which the converter parses and accepts) completes
with a note at beat -1, violating `beat ≥ 0`. -/
theorem zero_duration_note_in_output :
    convertFile zeroDurationDoc =
      .ok { title := "Untitled", bpm := 120,
            notes := [{ pitch := 60, beat := 0, duration := 0,
                          velocity := 80 }] } ∧
    (∃ jn ∈ ([{ pitch := 60, beat := 0, duration := 0, velocity := 80 }] :
        List JsonNote), ¬ 0 < jn.duration) ∧
    convertFile negDurationDoc =
      .ok { title := "Untitled", bpm := 120,
            notes := [{ pitch := 60, beat := -1, duration := 1,
                          velocity := 80 },
                      { pitch := 60, beat := 0, duration := -1,
                          velocity := 80 }] } ∧
    ∃ jn ∈ ([{ pitch := 60, beat := -1, duration := 1, velocity := 80 }] :
        List JsonNote), jn.beat < 0 := by
  refine ⟨?_, ?_, ?_, ?_⟩
  · have hC : noteMap "C" = some 0 := by decide
    norm_num +decide [convertFile, convert_file, zeroDurationDoc,
      c4NoteElem, initState, processParts, processPart, processMeasures,
      processMeasure, processElems, processElem, process_note_element,
      process_tie, duration_to_beats, pitch_to_midi, hC, assocFind,
      assocSet, valuesMax, noteToJson, sortByBeat, insertByBeat,
      round_beat_zero, max_def, Except.map]
  · exact ⟨{ pitch := 60, beat := 0, duration := 0, velocity := 80 },
      by simp, by norm_num⟩
  · have hC : noteMap "C" = some 0 := by decide
    norm_num +decide [convertFile, convert_file, negDurationDoc,
      c4NoteElem, initState, processParts, processPart, processMeasures,
      processMeasure, processElems, processElem, process_note_element,
      process_tie, duration_to_beats, pitch_to_midi, hC, assocFind,
      assocSet, valuesMax, noteToJson, sortByBeat, insertByBeat,
      round_beat_zero, round_beat_one, round_beat_neg_one, max_def]
  · exact ⟨{ pitch := 60, beat := -1, duration := 1, velocity := 80 },
      by simp, by norm_num⟩

/-- Document containing a single C4 quarter note (default divisions). -/
def singleNoteDoc : Doc :=
  { parts := [⟨[⟨[.note (c4NoteElem 24)]⟩]⟩] }

/-- Evaluation of the single-note document. -/
theorem singleNoteDoc_eval :
    convertFile singleNoteDoc =
      .ok { title := "Untitled", bpm := 120,
            notes := [{ pitch := 60, beat := 0, duration := 1,
                          velocity := 80 }] } := by
  have hC : noteMap "C" = some 0 := by decide
  norm_num +decide [convertFile, convert_file, singleNoteDoc, c4NoteElem,
    initState, processParts, processPart, processMeasures, processMeasure,
    processElems, processElem, process_note_element, process_tie,
    duration_to_beats, pitch_to_midi, hC, assocFind, assocSet, valuesMax,
    noteToJson, sortByBeat, insertByBeat, round_beat_zero, round_beat_one,
    max_def]

/-- Concrete instance of the nonnegativity invariant on the single-note
document. -/
theorem conversion_notes_nonneg_witness :
    docNonnegB singleNoteDoc = true ∧
    ∀ jn ∈ ({ title := "Untitled", bpm := 120,
               notes := [{ pitch := 60, beat := 0, duration := 1,
                             velocity := 80 }] } : ConvOutput).notes,
      0 ≤ jn.beat ∧ 0 ≤ jn.duration :=
  ⟨by decide,
   conversion_notes_nonneg singleNoteDoc _ (by decide) singleNoteDoc_eval⟩
